import Mathlib

set_option autoImplicit false

/-!
Verification of the adaptive core of the vrp repository against its design
specification: the `ActionsEstimate` component of the MDP module
(`vrp-core/src/algorithms/mdp/mod.rs`) and the `DominancePopulation`
component (`vrp-core/src/solver/population.rs`).

Modelling conventions:
* `f64` estimate and fitness values are modelled as rationals; every
  property treated here depends only on ordering and field arithmetic of
  the values involved, not on bit-level floating-point behaviour.
* `HashMap<Action, f64>` is modelled as an association list whose key
  order is irrelevant; `insert` overwrites an existing binding in place or
  appends a new one, which is exactly the observable `HashMap` semantics.
* The external `Random` collaborator is modelled as explicit draw
  functions (a stream of uniform draws), and the real-valued `ln` used by
  the weighted selection is abstracted as a function on the value model.
* Rust panics are modelled by `Option` results (`none` is a panic).
-/

namespace Vrp

/-- Modelled from the spec: the external floating-point comparator
(`compare_floats` from the `vrp-core` utilities, which is not among the
sources here); the spec describes it as a total-order comparison of
doubles.  On the rational model it is the standard order comparison
(the NaN case is not representable). -/
def compare_floats (a b : ℚ) : Ordering :=
  if a < b then Ordering.lt else if b < a then Ordering.gt else Ordering.eq

/-- Rust `Iterator::reduce` on a list. -/
def reduceOp {α : Type} (f : α → α → α) : List α → Option α
  | [] => none
  | x :: xs => some (xs.foldl f x)

/-- Rust `std::cmp::max_by`: returns the second argument when the
comparison determines the two values to be equal. -/
def maxByStep {α : Type} (cmp : α → α → Ordering) (v1 v2 : α) : α :=
  if cmp v2 v1 = Ordering.lt then v1 else v2

/-- Rust `std::cmp::min_by`: returns the first argument when the
comparison determines the two values to be equal. -/
def minByStep {α : Type} (cmp : α → α → Ordering) (v1 v2 : α) : α :=
  if cmp v2 v1 = Ordering.lt then v2 else v1

/-- Rust `Iterator::max_by` (the last maximal element wins ties). -/
def iterMaxBy {α : Type} (cmp : α → α → Ordering) (l : List α) : Option α :=
  reduceOp (maxByStep cmp) l

/-- Rust `Iterator::min_by` (the first minimal element wins ties). -/
def iterMinBy {α : Type} (cmp : α → α → Ordering) (l : List α) : Option α :=
  reduceOp (minByStep cmp) l

/-- Observable `HashMap::insert` semantics on an association list:
overwrite the binding if the key is present, otherwise add the binding. -/
def mapInsert {A : Type} [DecidableEq A] (l : List (A × ℚ)) (a : A) (v : ℚ) :
    List (A × ℚ) :=
  if l.any (fun p => decide (p.1 = a)) then
    l.map (fun p => if p.1 = a then (a, v) else p)
  else
    l ++ [(a, v)]

/-- Association-list lookup, the observable `HashMap` read. -/
def mapLookup {A : Type} [DecidableEq A] : List (A × ℚ) → A → Option ℚ
  | [], _ => none
  | p :: ps, a => if p.1 = a then some p.2 else mapLookup ps a

/-- `ActionsEstimate<S>` from `vrp-core/src/algorithms/mdp/mod.rs`:
the estimate map together with the cached extreme pairs. -/
structure ActionsEstimate (A : Type) where
  estimates : List (A × ℚ)
  max_estimate : Option (A × ℚ)
  min_estimate : Option (A × ℚ)

/-- The `Default` instance of `ActionsEstimate`: empty map, no extremes. -/
def ActionsEstimate.default {A : Type} : ActionsEstimate A :=
  { estimates := [], max_estimate := none, min_estimate := none }

/-- `ActionsEstimate::insert` from the source: store the estimate and
update the cached extremes with `and_then`/`or_else` exactly as the code
does (replace the cached pair only when the new estimate is strictly
beyond it, otherwise keep the old pair). -/
def ActionsEstimate.insert {A : Type} [DecidableEq A] (ae : ActionsEstimate A)
    (action : A) (estimate : ℚ) : ActionsEstimate A :=
  { estimates := mapInsert ae.estimates action estimate
    max_estimate :=
      (ae.max_estimate.bind fun old =>
        if estimate > old.2 then none else some old).orElse
        fun _ => some (action, estimate)
    min_estimate :=
      (ae.min_estimate.bind fun old =>
        if estimate < old.2 then none else some old).orElse
        fun _ => some (action, estimate) }

/-- `ActionsEstimate::data`. -/
def ActionsEstimate.data {A : Type} (ae : ActionsEstimate A) : List (A × ℚ) :=
  ae.estimates

/-- `ActionsEstimate::weighted` from the source.  The fresh uniform draw
of the `Random` collaborator for the action at position `i` of the
iteration is `u i`, and the real natural logarithm on the value model is
abstracted as `ln`.  The comparator passed to `min_by` in the source is
`partial_cmp( ).unwrap()` on the keys, which on non-NaN values is the
total order comparison on the first components. -/
def ActionsEstimate.weighted {A : Type} (ae : ActionsEstimate A)
    (ln : ℚ → ℚ) (u : ℕ → ℚ) : Option A :=
  let offset : ℚ :=
    match ae.min_estimate with
    | some (_, value) =>
      if value < 0 then -value
      else if compare_floats value 0 = Ordering.eq then 1 / 100
      else 0
    | none => 0
  (iterMinBy (fun a b => compare_floats a.1 b.1)
      (ae.estimates.enum.map fun p => (-ln (u p.1) / (p.2.2 + offset), p.2.1))).map
    fun p => p.2

/-- `ActionsEstimate::random` from the source; `ri` is the external
`Random::uniform_int` draw, modelled from the spec as a total function on
inclusive bounds, and the `as usize` cast of its `i32` result wraps
modulo 2 ^ 64 (two-complement reinterpretation). -/
def ActionsEstimate.random {A : Type} (ae : ActionsEstimate A)
    (ri : Int → Int → Int) : Option A :=
  let random_idx : ℕ := ((ri 0 ((ae.estimates.length : Int) - 1)) % (2 ^ 64 : Int)).toNat
  (ae.estimates.map Prod.fst).get? random_idx

/-- `From<HashMap<Action, f64>>` for `ActionsEstimate`: keep the map and
seed both cached extremes by one full scan with `max_by`/`min_by` over
`compare_floats` on the values. -/
def ActionsEstimate.ofMap {A : Type} (map : List (A × ℚ)) : ActionsEstimate A :=
  { estimates := map
    max_estimate := iterMaxBy (fun a b => compare_floats a.2 b.2) map
    min_estimate := iterMinBy (fun a b => compare_floats a.2 b.2) map }

/-- Modelled from the spec (section 4.1): the earliest entry of a keyed
list whose key is smallest, by structural recursion; used to phrase the
"return the action with the smallest key" step of the weighted policy. -/
def argminFirst {A : Type} : ℚ × A → List (ℚ × A) → ℚ × A
  | x, [] => x
  | x, y :: ys => if x.1 ≤ (argminFirst y ys).1 then x else argminFirst y ys

/-- Modelled from the spec (section 4.1): the weighted selection policy in
the words of the spec.  Let `offset = -min_value` if `min_value < 0`,
`offset = 0.01` if `min_value` is float-equal to `0`, else `offset = 0`;
give the action at position `i` with value `v` the sampling key
`-ln (u i) / (v + offset)` with `u i` its fresh uniform draw; return the
action with the smallest key, and an absent result on an empty set. -/
def weightedSpec {A : Type} (ae : ActionsEstimate A) (ln : ℚ → ℚ) (u : ℕ → ℚ) :
    Option A :=
  let min_value : Option ℚ := ae.min_estimate.map fun p => p.2
  let offset : ℚ :=
    match min_value with
    | some m =>
      if m < 0 then -m
      else if compare_floats m 0 = Ordering.eq then 1 / 100
      else 0
    | none => 0
  match ae.estimates.enum.map fun p => (-ln (u p.1) / (p.2.2 + offset), p.2.1) with
  | [] => none
  | k :: ks => some (argminFirst k ks).2

lemma compare_floats_eq_lt (a b : ℚ) : compare_floats a b = Ordering.lt ↔ a < b := by
  unfold compare_floats
  rcases lt_trichotomy a b with h | h | h
  · simp [h]
  · subst h
    simp [lt_irrefl]
  · simp [not_lt.mpr (le_of_lt h), h, not_lt.mpr (le_of_lt h)]

lemma minByStep_fst {A : Type} (x y : ℚ × A) :
    minByStep (fun a b => compare_floats a.1 b.1) x y = if y.1 < x.1 then y else x := by
  unfold minByStep
  by_cases h : y.1 < x.1 <;> simp [compare_floats_eq_lt, h]

lemma argminFirst_fst_le {A : Type} (x : ℚ × A) (l : List (ℚ × A)) :
    (argminFirst x l).1 ≤ x.1 := by
  induction l generalizing x with
  | nil => exact le_refl _
  | cons y ys ih =>
    simp only [argminFirst]
    split
    · exact le_refl _
    · next h => exact le_of_not_le h

lemma argminFirst_cons_of_le {A : Type} (x y : ℚ × A) (l : List (ℚ × A))
    (h : x.1 ≤ y.1) :
    argminFirst x l = if x.1 ≤ (argminFirst y l).1 then x else argminFirst y l := by
  cases l with
  | nil => simp [argminFirst, h]
  | cons z zs =>
    simp only [argminFirst]
    by_cases hx : x.1 ≤ (argminFirst z zs).1
    · by_cases hy : y.1 ≤ (argminFirst z zs).1
      · simp [hx, hy, h]
      · simp [hx, hy]
    · have hy : ¬ y.1 ≤ (argminFirst z zs).1 := fun hy => hx (le_trans h hy)
      simp [hx, hy]

lemma foldl_minByStep_eq_argminFirst {A : Type} (x : ℚ × A) (ys : List (ℚ × A)) :
    ys.foldl (minByStep (fun a b => compare_floats a.1 b.1)) x = argminFirst x ys := by
  induction ys generalizing x with
  | nil => rfl
  | cons y ys ih =>
    rw [List.foldl_cons, ih, minByStep_fst]
    by_cases h : y.1 < x.1
    · rw [if_pos h]
      have hm : (argminFirst y ys).1 ≤ y.1 := argminFirst_fst_le y ys
      simp only [argminFirst]
      rw [if_neg (not_le.mpr (lt_of_le_of_lt hm h))]
    · rw [if_neg h]
      simp only [argminFirst]
      exact argminFirst_cons_of_le x y ys (le_of_not_lt h)

lemma iterMinBy_map_snd_eq {A : Type} (L : List (ℚ × A)) :
    (iterMinBy (fun a b => compare_floats a.1 b.1) L).map (fun p => p.2) =
      match L with
      | [] => none
      | k :: ks => some (argminFirst k ks).2 := by
  cases L with
  | nil => rfl
  | cons k ks => simp [iterMinBy, reduceOp, foldl_minByStep_eq_argminFirst]

lemma isSome_map_iterMinBy_of_ne_nil {α β : Type} (cmp : α → α → Ordering)
    (g : α → β) (L : List α) (h : L ≠ []) :
    ((iterMinBy cmp L).map g).isSome = true := by
  cases L with
  | nil => exact absurd rfl h
  | cons k ks => rfl

/-- Claim C1 (code bug witnessed on the code): overwriting the estimate of
the action tracked as the cached maximum with a smaller value leaves the
cached maximum stale.  After `insert a 5` then `insert a 1` starting from
the empty estimate, `data` holds only the value `1`, yet `max_estimate`
still reports value `5`, so the cached maximum no longer equals the true
maximum of the values in `data`. -/
theorem insert_overwrite_stale_max :
    ((ActionsEstimate.default.insert (0 : ℕ) 5).insert 0 1).estimates = [(0, 1)] ∧
    ((ActionsEstimate.default.insert (0 : ℕ) 5).insert 0 1).max_estimate = some (0, 5) ∧
    ((ActionsEstimate.default.insert (0 : ℕ) 5).insert 0 1).min_estimate = some (0, 1) := by
  refine ⟨?_, ?_, ?_⟩ <;> rfl

/-- Claim C4: on an empty estimate set both `random` and `weighted` return
an absent result, whatever the external random draws are; both operations
are total (no panic path is taken). -/
theorem empty_estimates_select_none {A : Type} (ae : ActionsEstimate A)
    (ri : Int → Int → Int) (ln : ℚ → ℚ) (u : ℕ → ℚ)
    (h : ae.estimates = []) :
    ae.random ri = none ∧ ae.weighted ln u = none := by
  constructor
  · simp [ActionsEstimate.random, h]
  · simp [ActionsEstimate.weighted, h, iterMinBy, reduceOp]

/-- Witness for claim C4 at the concrete empty estimate. -/
theorem empty_estimates_select_none_witness :
    (ActionsEstimate.default (A := ℕ)).random (fun _ _ => 0) = none ∧
    (ActionsEstimate.default (A := ℕ)).weighted (fun q => q) (fun _ => 1 / 2) = none :=
  empty_estimates_select_none _ _ _ _ rfl

/-- Claim C5: `weighted` computes exactly the exponential-race selection
the spec describes: the offset is `-m` for a negative minimum value `m`,
`0.01` for a float-zero minimum, `0` otherwise; each action with value `v`
gets the key `-ln (u i) / (v + offset)` from its fresh draw `u i`; the
action with the smallest key is returned, and the result is present
whenever the estimate set is non-empty. -/
theorem weighted_matches_exponential_race {A : Type} (ae : ActionsEstimate A)
    (ln : ℚ → ℚ) (u : ℕ → ℚ) :
    ae.weighted ln u = weightedSpec ae ln u ∧
    (ae.estimates ≠ [] → (ae.weighted ln u).isSome = true) := by
  have heq : ae.weighted ln u = weightedSpec ae ln u := by
    unfold ActionsEstimate.weighted weightedSpec
    rcases hmin : ae.min_estimate with _ | ⟨a, v⟩
    · simp only [hmin, Option.map_none']
      exact iterMinBy_map_snd_eq _
    · simp only [hmin, Option.map_some']
      exact iterMinBy_map_snd_eq _
  refine ⟨heq, fun hne => ?_⟩
  have h1 : ae.estimates.enum ≠ [] := by
    intro hcon
    exact hne (List.length_eq_zero.mp (by simpa using congrArg List.length hcon))
  simp only [ActionsEstimate.weighted]
  exact isSome_map_iterMinBy_of_ne_nil _ _ _ (by simpa using h1)

/-- Witness for claim C5 at a concrete two-action estimate. -/
theorem weighted_matches_exponential_race_witness :
    (ActionsEstimate.ofMap [((0 : ℕ), (2 : ℚ)), (1, 3)]).weighted (fun q => q) (fun _ => 1 / 2) =
      weightedSpec (ActionsEstimate.ofMap [((0 : ℕ), (2 : ℚ)), (1, 3)]) (fun q => q) (fun _ => 1 / 2) ∧
    ((ActionsEstimate.ofMap [((0 : ℕ), (2 : ℚ)), (1, 3)]).weighted (fun q => q) (fun _ => 1 / 2)).isSome = true :=
  ⟨(weighted_matches_exponential_race _ _ _).1,
   (weighted_matches_exponential_race _ _ _).2 (by simp [ActionsEstimate.ofMap])⟩

lemma maxByStep_snd {A : Type} (x y : A × ℚ) :
    maxByStep (fun a b => compare_floats a.2 b.2) x y = if y.2 < x.2 then x else y := by
  unfold maxByStep
  by_cases h : y.2 < x.2 <;> simp [compare_floats_eq_lt, h]

lemma minByStep_snd {A : Type} (x y : A × ℚ) :
    minByStep (fun a b => compare_floats a.2 b.2) x y = if y.2 < x.2 then y else x := by
  unfold minByStep
  by_cases h : y.2 < x.2 <;> simp [compare_floats_eq_lt, h]

lemma foldl_maxByStep_spec {A : Type} (l : List (A × ℚ)) (x : A × ℚ) :
    l.foldl (maxByStep (fun a b => compare_floats a.2 b.2)) x ∈ x :: l ∧
    x.2 ≤ (l.foldl (maxByStep (fun a b => compare_floats a.2 b.2)) x).2 ∧
    ∀ q ∈ l, q.2 ≤ (l.foldl (maxByStep (fun a b => compare_floats a.2 b.2)) x).2 := by
  induction l generalizing x with
  | nil => simp
  | cons y ys ih =>
    rw [List.foldl_cons, maxByStep_snd]
    by_cases h : y.2 < x.2
    · rw [if_pos h]
      obtain ⟨hmem, hle, hall⟩ := ih x
      refine ⟨?_, hle, ?_⟩
      · rcases List.mem_cons.mp hmem with h1 | h1
        · simp [h1]
        · simp [h1]
      · intro q hq
        rcases List.mem_cons.mp hq with h1 | h1
        · exact h1 ▸ le_trans (le_of_lt h) hle
        · exact hall q h1
    · rw [if_neg h]
      obtain ⟨hmem, hle, hall⟩ := ih y
      refine ⟨?_, le_trans (le_of_not_lt h) hle, ?_⟩
      · rcases List.mem_cons.mp hmem with h1 | h1
        · simp [h1]
        · simp [h1]
      · intro q hq
        rcases List.mem_cons.mp hq with h1 | h1
        · exact h1 ▸ hle
        · exact hall q h1

lemma foldl_minByStep_spec {A : Type} (l : List (A × ℚ)) (x : A × ℚ) :
    l.foldl (minByStep (fun a b => compare_floats a.2 b.2)) x ∈ x :: l ∧
    (l.foldl (minByStep (fun a b => compare_floats a.2 b.2)) x).2 ≤ x.2 ∧
    ∀ q ∈ l, (l.foldl (minByStep (fun a b => compare_floats a.2 b.2)) x).2 ≤ q.2 := by
  induction l generalizing x with
  | nil => simp
  | cons y ys ih =>
    rw [List.foldl_cons, minByStep_snd]
    by_cases h : y.2 < x.2
    · rw [if_pos h]
      obtain ⟨hmem, hle, hall⟩ := ih y
      refine ⟨?_, le_trans hle (le_of_lt h), ?_⟩
      · rcases List.mem_cons.mp hmem with h1 | h1
        · simp [h1]
        · simp [h1]
      · intro q hq
        rcases List.mem_cons.mp hq with h1 | h1
        · exact h1 ▸ hle
        · exact hall q h1
    · rw [if_neg h]
      obtain ⟨hmem, hle, hall⟩ := ih x
      refine ⟨?_, hle, ?_⟩
      · rcases List.mem_cons.mp hmem with h1 | h1
        · simp [h1]
        · simp [h1]
      · intro q hq
        rcases List.mem_cons.mp hq with h1 | h1
        · exact h1 ▸ le_trans hle (le_of_not_lt h)
        · exact hall q h1

lemma iterMaxBy_spec {A : Type} (l : List (A × ℚ)) (h : l ≠ []) :
    ∃ p, iterMaxBy (fun a b => compare_floats a.2 b.2) l = some p ∧ p ∈ l ∧
      ∀ q ∈ l, q.2 ≤ p.2 := by
  cases l with
  | nil => exact absurd rfl h
  | cons x xs =>
    obtain ⟨hmem, hle, hall⟩ := foldl_maxByStep_spec xs x
    refine ⟨_, rfl, hmem, ?_⟩
    intro q hq
    rcases List.mem_cons.mp hq with h1 | h1
    · exact h1 ▸ hle
    · exact hall q h1

lemma iterMinBy_spec {A : Type} (l : List (A × ℚ)) (h : l ≠ []) :
    ∃ p, iterMinBy (fun a b => compare_floats a.2 b.2) l = some p ∧ p ∈ l ∧
      ∀ q ∈ l, p.2 ≤ q.2 := by
  cases l with
  | nil => exact absurd rfl h
  | cons x xs =>
    obtain ⟨hmem, hle, hall⟩ := foldl_minByStep_spec xs x
    refine ⟨_, rfl, hmem, ?_⟩
    intro q hq
    rcases List.mem_cons.mp hq with h1 | h1
    · exact h1 ▸ hle
    · exact hall q h1

/-- Claim C9: construction from a complete map keeps the map as `data` and
seeds the cached extremes with one full scan: they are absent exactly when
the map is empty, and otherwise are pairs of the map attaining the true
maximum, respectively minimum, value over the map. -/
theorem ofMap_seeds_extremes {A : Type} (m : List (A × ℚ)) :
    (ActionsEstimate.ofMap m).data = m ∧
    ((ActionsEstimate.ofMap m).max_estimate = none ↔ m = []) ∧
    ((ActionsEstimate.ofMap m).min_estimate = none ↔ m = []) ∧
    (m ≠ [] → ∃ p, (ActionsEstimate.ofMap m).max_estimate = some p ∧ p ∈ m ∧
      ∀ q ∈ m, q.2 ≤ p.2) ∧
    (m ≠ [] → ∃ p, (ActionsEstimate.ofMap m).min_estimate = some p ∧ p ∈ m ∧
      ∀ q ∈ m, p.2 ≤ q.2) := by
  refine ⟨rfl, ?_, ?_, fun h => iterMaxBy_spec m h, fun h => iterMinBy_spec m h⟩
  · cases m <;> simp [ActionsEstimate.ofMap, iterMaxBy, reduceOp]
  · cases m <;> simp [ActionsEstimate.ofMap, iterMinBy, reduceOp]

/-- Witness for claim C9 at a concrete two-entry map. -/
theorem ofMap_seeds_extremes_witness :
    (∃ p, (ActionsEstimate.ofMap [((0 : ℕ), (3 : ℚ)), (1, 7)]).max_estimate = some p ∧
      p ∈ [((0 : ℕ), (3 : ℚ)), (1, 7)] ∧ ∀ q ∈ [((0 : ℕ), (3 : ℚ)), (1, 7)], q.2 ≤ p.2) ∧
    (∃ p, (ActionsEstimate.ofMap [((0 : ℕ), (3 : ℚ)), (1, 7)]).min_estimate = some p ∧
      p ∈ [((0 : ℕ), (3 : ℚ)), (1, 7)] ∧ ∀ q ∈ [((0 : ℕ), (3 : ℚ)), (1, 7)], p.2 ≤ q.2) :=
  ⟨(ofMap_seeds_extremes _).2.2.2.1 (by simp), (ofMap_seeds_extremes _).2.2.2.2 (by simp)⟩

lemma mapLookup_map_overwrite {A : Type} [DecidableEq A] (l : List (A × ℚ))
    (a : A) (v : ℚ) (h : l.any (fun p => decide (p.1 = a)) = true) :
    mapLookup (l.map fun p => if p.1 = a then (a, v) else p) a = some v := by
  induction l with
  | nil => simp at h
  | cons p ps ih =>
    by_cases hp : p.1 = a
    · simp [mapLookup, hp]
    · have h2 : ps.any (fun p => decide (p.1 = a)) = true := by
        simpa [hp] using h
      simp [mapLookup, hp, ih h2]

lemma mapLookup_append_of_no_key {A : Type} [DecidableEq A] (l : List (A × ℚ))
    (a : A) (v : ℚ) (h : l.any (fun p => decide (p.1 = a)) = false) :
    mapLookup (l ++ [(a, v)]) a = some v := by
  induction l with
  | nil => simp [mapLookup]
  | cons p ps ih =>
    simp only [List.any_cons, Bool.or_eq_false_iff] at h
    have hp : ¬ p.1 = a := by simpa using h.1
    simp [mapLookup, hp, ih h.2]

lemma mapLookup_map_overwrite_ne {A : Type} [DecidableEq A] (l : List (A × ℚ))
    (a : A) (v : ℚ) (b : A) (hb : b ≠ a) :
    mapLookup (l.map fun p => if p.1 = a then (a, v) else p) b = mapLookup l b := by
  induction l with
  | nil => rfl
  | cons p ps ih =>
    by_cases hp : p.1 = a
    · have hpb : ¬ p.1 = b := fun hc => hb ((hc.symm.trans hp))
      have hab : ¬ a = b := fun hc => hb hc.symm
      simp [mapLookup, hp, hpb, hab, ih]
    · by_cases hpb : p.1 = b <;> simp [mapLookup, hp, hpb, ih, hb]

lemma mapLookup_append_ne {A : Type} [DecidableEq A] (l : List (A × ℚ))
    (a : A) (v : ℚ) (b : A) (hb : b ≠ a) :
    mapLookup (l ++ [(a, v)]) b = mapLookup l b := by
  induction l with
  | nil => simp [mapLookup, Ne.symm hb]
  | cons p ps ih => by_cases hp : p.1 = b <;> simp [mapLookup, hp, ih]

lemma keys_map_overwrite {A : Type} [DecidableEq A] (l : List (A × ℚ))
    (a : A) (v : ℚ) :
    (l.map fun p => if p.1 = a then (a, v) else p).map Prod.fst = l.map Prod.fst := by
  induction l with
  | nil => rfl
  | cons p ps ih =>
    by_cases hp : p.1 = a
    · simp [hp, ih]
    · simp [hp, ih]

/-- Claim C10: `insert` sets the binding of the inserted action in `data`,
leaves the binding of every other action unchanged, never removes a key,
and grows the key set by at most one key. -/
theorem insert_frame {A : Type} [DecidableEq A] (ae : ActionsEstimate A)
    (a : A) (v : ℚ) (b : A) (hb : b ≠ a) :
    mapLookup (ae.insert a v).data a = some v ∧
    mapLookup (ae.insert a v).data b = mapLookup ae.data b ∧
    (∀ k, k ∈ ae.data.map Prod.fst → k ∈ (ae.insert a v).data.map Prod.fst) ∧
    ((ae.insert a v).data.map Prod.fst).length ≤ (ae.data.map Prod.fst).length + 1 := by
  show mapLookup (mapInsert ae.estimates a v) a = some v ∧
    mapLookup (mapInsert ae.estimates a v) b = mapLookup ae.estimates b ∧
    (∀ k, k ∈ ae.estimates.map Prod.fst → k ∈ (mapInsert ae.estimates a v).map Prod.fst) ∧
    ((mapInsert ae.estimates a v).map Prod.fst).length ≤ (ae.estimates.map Prod.fst).length + 1
  unfold mapInsert
  by_cases h : ae.estimates.any (fun p => decide (p.1 = a)) = true
  · rw [if_pos h]
    refine ⟨mapLookup_map_overwrite _ _ _ h, mapLookup_map_overwrite_ne _ _ _ _ hb, ?_, ?_⟩
    · intro k hk
      rw [keys_map_overwrite]
      exact hk
    · rw [keys_map_overwrite]
      exact Nat.le_succ _
  · have h2 : ae.estimates.any (fun p => decide (p.1 = a)) = false :=
      Bool.eq_false_iff.mpr h
    rw [if_neg h]
    refine ⟨mapLookup_append_of_no_key _ _ _ h2, mapLookup_append_ne _ _ _ _ hb, ?_, ?_⟩
    · intro k hk
      rw [List.map_append]
      exact List.mem_append_left _ hk
    · simp

/-- Witness for claim C10: inserting a fresh action next to an existing one. -/
theorem insert_frame_witness :
    mapLookup ((ActionsEstimate.ofMap [((0 : ℕ), (2 : ℚ))]).insert 1 5).data 1 = some 5 ∧
    mapLookup ((ActionsEstimate.ofMap [((0 : ℕ), (2 : ℚ))]).insert 1 5).data 0 =
      mapLookup (ActionsEstimate.ofMap [((0 : ℕ), (2 : ℚ))]).data 0 :=
  ⟨(insert_frame (ActionsEstimate.ofMap [((0 : ℕ), (2 : ℚ))]) 1 5 0 (by decide)).1,
   (insert_frame (ActionsEstimate.ofMap [((0 : ℕ), (2 : ℚ))]) 1 5 0 (by decide)).2.1⟩

/-- Result entry of the external `select_and_rank` ranking routine of the
NSGA-II module (its implementation is not among the sources here): the
Pareto rank, the index into the ranked slice, and the crowding distance. -/
structure RankedEntry where
  rank : ℕ
  index : ℕ
  crowding_distance : ℚ

/-- `DominancePopulation` from `vrp-core/src/solver/population.rs`: the
individuals and their index-aligned Pareto ranks, bounded by
`max_population_size`.  The shared read-only problem handle is not kept in
the state: its objective (the ranking routine and the scalar fitness
function) is passed explicitly to the operations below, which matches the
source where the handle is never mutated. -/
structure DominancePopulation (I : Type) where
  max_population_size : ℕ
  individuals : List I
  ranks : List ℕ

/-- `DominancePopulation::new`; the `assert!(max_population_size > 0)`
panic is modelled by an absent result. -/
def DominancePopulation.new (I : Type) (max_population_size : ℕ) :
    Option (DominancePopulation I) :=
  if max_population_size > 0 then
    some { max_population_size := max_population_size, individuals := [], ranks := [] }
  else none

/-- Rust `Vec::dedup_by` tail walk: keep track of the last retained
element; the predicate receives the candidate for removal first and the
previously retained element second. -/
def dedupByKeep {α : Type} (p : α → α → Bool) : α → List α → List α
  | _, [] => []
  | kept, y :: ys => if p y kept then dedupByKeep p kept ys else y :: dedupByKeep p y ys

/-- Rust `Vec::dedup_by`: of each run of consecutive elements identified
by the predicate, keep the first. -/
def dedupBy {α : Type} (p : α → α → Bool) : List α → List α
  | [] => []
  | x :: xs => x :: dedupByKeep p x xs

/-- `DominancePopulation::add_individual` from the source: push the new
individual with placeholder rank `0`; obtain the best order over the whole
current set from the external ranking routine; unless that result is
empty (the guarded degenerate case), deduplicate adjacent entries that are
float-equal in both crowding distance and fitness, and wholly replace the
individuals (via `deep_copy`, the identity in this value-semantics model)
and the ranks.  An out-of-range index from the routine would panic in the
source at the `unwrap`; `getD` keeps this embedding total, and no property
below depends on that case. -/
def DominancePopulation.add_individual {I : Type} [Inhabited I]
    (select_and_rank : List I → ℕ → List RankedEntry) (fitness : I → ℚ)
    (pop : DominancePopulation I) (individual : I) : DominancePopulation I :=
  let individuals := pop.individuals ++ [individual]
  let ranks := pop.ranks ++ [0]
  let best_order : List (ℕ × ℕ × ℚ × ℚ) :=
    (select_and_rank individuals individuals.length).map fun acd =>
      (acd.rank, acd.index, acd.crowding_distance,
        fitness (individuals.getD acd.index default))
  if best_order.isEmpty then
    { pop with individuals := individuals, ranks := ranks }
  else
    let deduped := dedupBy
      (fun x y => decide (compare_floats x.2.2.1 y.2.2.1 = Ordering.eq) &&
        decide (compare_floats x.2.2.2 y.2.2.2 = Ordering.eq)) best_order
    { pop with
      individuals := deduped.map fun e => individuals.getD e.2.1 default
      ranks := deduped.map fun e => e.1 }

/-- `DominancePopulation::ensure_max_population_size`: truncate both
sequences to the capacity when it is exceeded. -/
def DominancePopulation.ensure_max_population_size {I : Type}
    (pop : DominancePopulation I) : DominancePopulation I :=
  if pop.individuals.length > pop.max_population_size then
    { pop with
      individuals := pop.individuals.take pop.max_population_size
      ranks := pop.ranks.take pop.max_population_size }
  else pop

/-- `Population::add` for `DominancePopulation`. -/
def DominancePopulation.add {I : Type} [Inhabited I]
    (select_and_rank : List I → ℕ → List RankedEntry) (fitness : I → ℚ)
    (pop : DominancePopulation I) (individual : I) : DominancePopulation I :=
  DominancePopulation.ensure_max_population_size
    (DominancePopulation.add_individual select_and_rank fitness pop individual)

/-- `Population::add_all` for `DominancePopulation`: insert every
individual, then enforce the size bound once. -/
def DominancePopulation.add_all {I : Type} [Inhabited I]
    (select_and_rank : List I → ℕ → List RankedEntry) (fitness : I → ℚ)
    (pop : DominancePopulation I) (individuals : List I) : DominancePopulation I :=
  DominancePopulation.ensure_max_population_size
    (individuals.foldl (DominancePopulation.add_individual select_and_rank fitness) pop)

/-- `Population::ranked` for `DominancePopulation`: the individuals zipped
with their ranks, in order. -/
def DominancePopulation.ranked {I : Type} (pop : DominancePopulation I) :
    List (I × ℕ) :=
  pop.individuals.zip pop.ranks

/-- `Population::size` for `DominancePopulation`. -/
def DominancePopulation.size {I : Type} (pop : DominancePopulation I) : ℕ :=
  pop.individuals.length

/-- The population states reachable through the public constructor (with a
positive capacity) and the public `add`/`add_all` operations, for a fixed
problem objective. -/
inductive Reachable {I : Type} [Inhabited I]
    (sr : List I → ℕ → List RankedEntry) (fitness : I → ℚ) :
    DominancePopulation I → Prop where
  | new_intro (m : ℕ) (hm : 0 < m) :
      Reachable sr fitness { max_population_size := m, individuals := [], ranks := [] }
  | add_intro {pop : DominancePopulation I} (x : I) (h : Reachable sr fitness pop) :
      Reachable sr fitness (DominancePopulation.add sr fitness pop x)
  | add_all_intro {pop : DominancePopulation I} (xs : List I)
      (h : Reachable sr fitness pop) :
      Reachable sr fitness (DominancePopulation.add_all sr fitness pop xs)

lemma add_individual_len_eq {I : Type} [Inhabited I]
    (sr : List I → ℕ → List RankedEntry) (fitness : I → ℚ)
    (pop : DominancePopulation I) (x : I)
    (h : pop.individuals.length = pop.ranks.length) :
    (DominancePopulation.add_individual sr fitness pop x).individuals.length =
      (DominancePopulation.add_individual sr fitness pop x).ranks.length := by
  simp only [DominancePopulation.add_individual]
  split
  · simp [h]
  · simp

lemma ensure_len_eq {I : Type} (pop : DominancePopulation I)
    (h : pop.individuals.length = pop.ranks.length) :
    (DominancePopulation.ensure_max_population_size pop).individuals.length =
      (DominancePopulation.ensure_max_population_size pop).ranks.length := by
  unfold DominancePopulation.ensure_max_population_size
  split
  · simp [h]
  · exact h

lemma ensure_le_max {I : Type} (pop : DominancePopulation I) :
    (DominancePopulation.ensure_max_population_size pop).individuals.length ≤
      (DominancePopulation.ensure_max_population_size pop).max_population_size := by
  unfold DominancePopulation.ensure_max_population_size
  split
  · next hgt => simp [List.length_take]
  · next hle => exact le_of_not_lt hle

lemma foldl_add_individual_len_eq {I : Type} [Inhabited I]
    (sr : List I → ℕ → List RankedEntry) (fitness : I → ℚ) (xs : List I)
    (pop : DominancePopulation I)
    (h : pop.individuals.length = pop.ranks.length) :
    (xs.foldl (DominancePopulation.add_individual sr fitness) pop).individuals.length =
      (xs.foldl (DominancePopulation.add_individual sr fitness) pop).ranks.length := by
  induction xs generalizing pop with
  | nil => exact h
  | cons x xs ih => exact ih _ (add_individual_len_eq sr fitness pop x h)

lemma reachable_len_eq {I : Type} [Inhabited I]
    (sr : List I → ℕ → List RankedEntry) (fitness : I → ℚ)
    (pop : DominancePopulation I) (h : Reachable sr fitness pop) :
    pop.individuals.length = pop.ranks.length := by
  induction h with
  | new_intro m hm => rfl
  | add_intro x h ih => exact ensure_len_eq _ (add_individual_len_eq _ _ _ _ ih)
  | add_all_intro xs h ih => exact ensure_len_eq _ (foldl_add_individual_len_eq _ _ xs _ ih)

lemma reachable_size_le {I : Type} [Inhabited I]
    (sr : List I → ℕ → List RankedEntry) (fitness : I → ℚ)
    (pop : DominancePopulation I) (h : Reachable sr fitness pop) :
    pop.individuals.length ≤ pop.max_population_size := by
  induction h with
  | new_intro m hm => exact Nat.zero_le _
  | add_intro x h ih => exact ensure_le_max _
  | add_all_intro xs h ih => exact ensure_le_max _

/-- Claim C2: every population reachable from a positive-capacity
construction through `add`/`add_all` keeps the individuals and ranks
sequences at equal length after each call, and `size` stays within
`max_population_size` — for every possible behaviour of the external
ranking routine. -/
theorem population_size_invariant {I : Type} [Inhabited I]
    (sr : List I → ℕ → List RankedEntry) (fitness : I → ℚ)
    (pop : DominancePopulation I) (h : Reachable sr fitness pop) :
    pop.individuals.length = pop.ranks.length ∧
    DominancePopulation.size pop ≤ pop.max_population_size :=
  ⟨reachable_len_eq sr fitness pop h, reachable_size_le sr fitness pop h⟩

/-- A concrete ranking routine used by the witnesses below: a single
rank-0 entry pointing at the first slot. -/
def srConstZero : List ℕ → ℕ → List RankedEntry := fun _ _ =>
  [{ rank := 0, index := 0, crowding_distance := 0 }]

/-- Witness for claim C2: capacity-1 population after one `add`. -/
theorem population_size_invariant_witness :
    (DominancePopulation.add srConstZero (fun n => (n : ℚ))
        { max_population_size := 1, individuals := [], ranks := [] } 7).individuals.length =
      (DominancePopulation.add srConstZero (fun n => (n : ℚ))
        { max_population_size := 1, individuals := [], ranks := [] } 7).ranks.length ∧
    DominancePopulation.size (DominancePopulation.add srConstZero (fun n => (n : ℚ))
        { max_population_size := 1, individuals := [], ranks := [] } 7) ≤
      (DominancePopulation.add srConstZero (fun n => (n : ℚ))
        { max_population_size := 1, individuals := [], ranks := [] } 7).max_population_size :=
  population_size_invariant srConstZero (fun n => (n : ℚ)) _
    (Reachable.add_intro 7 (Reachable.new_intro 1 (by decide)))

/-- Claim C6: constructing with capacity 0 is a fatal precondition
violation (no instance is produced), while every positive capacity yields
an empty population of size 0. -/
theorem new_rejects_zero_capacity (I : Type) (m : ℕ) :
    (m = 0 → DominancePopulation.new I m = none) ∧
    (0 < m → (DominancePopulation.new I m).map DominancePopulation.size = some 0) := by
  constructor
  · rintro rfl
    rfl
  · intro hm
    simp [DominancePopulation.new, hm, DominancePopulation.size]

/-- Witness for claim C6 at capacities 0 and 1. -/
theorem new_rejects_zero_capacity_witness :
    DominancePopulation.new ℕ 0 = none ∧
    (DominancePopulation.new ℕ 1).map DominancePopulation.size = some 0 :=
  ⟨(new_rejects_zero_capacity ℕ 0).1 rfl, (new_rejects_zero_capacity ℕ 1).2 (by decide)⟩

/-- Claim C8: `add_all` on a one-element list is the same state
transformation as `add`, for any population state, ranking routine,
fitness function, and individual. -/
theorem add_all_singleton_eq_add {I : Type} [Inhabited I]
    (sr : List I → ℕ → List RankedEntry) (fitness : I → ℚ)
    (pop : DominancePopulation I) (x : I) :
    DominancePopulation.add_all sr fitness pop [x] =
      DominancePopulation.add sr fitness pop x := rfl

/-- Counterexample to claim C3 as stated: with a ranking routine that
returns the empty result, `add` on an empty population of capacity 4 does
not restore the pre-call snapshot — the pushed individual and its
placeholder rank 0 survive the call. -/
theorem add_empty_ranking_not_snapshot :
    ¬ ((DominancePopulation.add (fun _ _ => ([] : List RankedEntry)) (fun n : ℕ => (n : ℚ))
          { max_population_size := 4, individuals := [], ranks := [] } 0).individuals = [] ∧
       (DominancePopulation.add (fun _ _ => ([] : List RankedEntry)) (fun n : ℕ => (n : ℚ))
          { max_population_size := 4, individuals := [], ranks := [] } 0).ranks = []) := by
  decide

/-- Claim C3 amended: when the ranking routine returns the empty result,
`add` skips only the replacement step: the new individual stays appended
with placeholder rank 0, the pre-existing entries are untouched, and only
the size-bound truncation is applied afterwards; no error is surfaced (the
operation is total). -/
theorem add_empty_ranking_skips_replacement {I : Type} [Inhabited I]
    (sr : List I → ℕ → List RankedEntry) (fitness : I → ℚ)
    (pop : DominancePopulation I) (x : I)
    (h : sr (pop.individuals ++ [x]) (pop.individuals ++ [x]).length = []) :
    DominancePopulation.add sr fitness pop x =
      DominancePopulation.ensure_max_population_size
        { pop with individuals := pop.individuals ++ [x], ranks := pop.ranks ++ [0] } := by
  simp only [DominancePopulation.add, DominancePopulation.add_individual]
  rw [h]
  simp

/-- Witness for claim C3 amended: a capacity-2 population holding one
individual, with a ranking routine that always returns the empty result. -/
theorem add_empty_ranking_skips_replacement_witness :
    DominancePopulation.add (fun _ _ => ([] : List RankedEntry)) (fun n : ℕ => (n : ℚ))
        { max_population_size := 2, individuals := [5], ranks := [0] } 9 =
      DominancePopulation.ensure_max_population_size
        { max_population_size := 2, individuals := [5, 9], ranks := [0, 0] } :=
  add_empty_ranking_skips_replacement (fun _ _ => ([] : List RankedEntry)) (fun n : ℕ => (n : ℚ))
    { max_population_size := 2, individuals := [5], ranks := [0] } 9 rfl

lemma dedupByKeep_sublist {α : Type} (p : α → α → Bool) (kept : α) (l : List α) :
    List.Sublist (dedupByKeep p kept l) l := by
  induction l generalizing kept with
  | nil => exact List.Sublist.refl _
  | cons y ys ih =>
    simp only [dedupByKeep]
    split
    · exact List.Sublist.cons y (ih kept)
    · exact List.Sublist.cons₂ y (ih y)

lemma dedupBy_sublist {α : Type} (p : α → α → Bool) (l : List α) :
    List.Sublist (dedupBy p l) l := by
  cases l with
  | nil => exact List.Sublist.refl _
  | cons x xs => exact List.Sublist.cons₂ x (dedupByKeep_sublist p x xs)

lemma sorted_ranks_add_individual {I : Type} [Inhabited I]
    (sr : List I → ℕ → List RankedEntry) (fitness : I → ℚ)
    (hsr : ∀ l n, l ≠ [] →
      sr l n ≠ [] ∧ List.Sorted (· ≤ ·) ((sr l n).map RankedEntry.rank))
    (pop : DominancePopulation I) (x : I) :
    List.Sorted (· ≤ ·) (DominancePopulation.add_individual sr fitness pop x).ranks := by
  have hne : pop.individuals ++ [x] ≠ [] := by simp
  obtain ⟨hsrne, hsorted⟩ :=
    hsr (pop.individuals ++ [x]) (pop.individuals ++ [x]).length hne
  simp only [DominancePopulation.add_individual]
  rw [if_neg (by
    simp only [List.isEmpty_iff, List.map_eq_nil_iff]
    exact hsrne)]
  have hsub := (dedupBy_sublist
    (fun x y => decide (compare_floats x.2.2.1 y.2.2.1 = Ordering.eq) &&
      decide (compare_floats x.2.2.2 y.2.2.2 = Ordering.eq))
    ((sr (pop.individuals ++ [x]) (pop.individuals ++ [x]).length).map fun acd =>
      (acd.rank, acd.index, acd.crowding_distance,
        fitness ((pop.individuals ++ [x]).getD acd.index default)))).map
    (fun e => e.1)
  refine List.Pairwise.sublist ?_ hsorted
  simpa [List.map_map, Function.comp] using hsub

lemma sorted_ranks_ensure {I : Type} (pop : DominancePopulation I)
    (h : List.Sorted (· ≤ ·) pop.ranks) :
    List.Sorted (· ≤ ·) (DominancePopulation.ensure_max_population_size pop).ranks := by
  unfold DominancePopulation.ensure_max_population_size
  split
  · exact List.Pairwise.sublist (List.take_sublist _ _) h
  · exact h

lemma sorted_ranks_foldl {I : Type} [Inhabited I]
    (sr : List I → ℕ → List RankedEntry) (fitness : I → ℚ)
    (hsr : ∀ l n, l ≠ [] →
      sr l n ≠ [] ∧ List.Sorted (· ≤ ·) ((sr l n).map RankedEntry.rank))
    (xs : List I) (pop : DominancePopulation I)
    (h : List.Sorted (· ≤ ·) pop.ranks) :
    List.Sorted (· ≤ ·)
      (xs.foldl (DominancePopulation.add_individual sr fitness) pop).ranks := by
  induction xs generalizing pop with
  | nil => exact h
  | cons x xs ih => exact ih _ (sorted_ranks_add_individual sr fitness hsr pop x)

lemma reachable_ranks_sorted {I : Type} [Inhabited I]
    (sr : List I → ℕ → List RankedEntry) (fitness : I → ℚ)
    (hsr : ∀ l n, l ≠ [] →
      sr l n ≠ [] ∧ List.Sorted (· ≤ ·) ((sr l n).map RankedEntry.rank))
    (pop : DominancePopulation I) (h : Reachable sr fitness pop) :
    List.Sorted (· ≤ ·) pop.ranks := by
  induction h with
  | new_intro m hm => exact List.sorted_nil
  | add_intro x h ih =>
    exact sorted_ranks_ensure _ (sorted_ranks_add_individual sr fitness hsr _ x)
  | add_all_intro xs h ih =>
    exact sorted_ranks_ensure _ (sorted_ranks_foldl sr fitness hsr xs _ ih)

/-- Claim C7: after any `add`/`add_all` call on a reachable population,
`ranked` yields pairs whose rank components are non-decreasing from front
to back.  The external ranking routine is modelled from the spec: it sorts
its output by rank ascending and is non-empty on non-empty input (the
degenerate empty result is excluded, since it is the separately treated
guard of claim C3). -/
theorem ranked_ranks_nondecreasing {I : Type} [Inhabited I]
    (sr : List I → ℕ → List RankedEntry) (fitness : I → ℚ)
    (hsr : ∀ l n, l ≠ [] →
      sr l n ≠ [] ∧ List.Sorted (· ≤ ·) ((sr l n).map RankedEntry.rank))
    (pop : DominancePopulation I) (h : Reachable sr fitness pop) :
    List.Sorted (· ≤ ·) ((DominancePopulation.ranked pop).map Prod.snd) := by
  have hlen := reachable_len_eq sr fitness pop h
  have hranks := reachable_ranks_sorted sr fitness hsr pop h
  unfold DominancePopulation.ranked
  rw [List.map_snd_zip _ _ (le_of_eq hlen.symm)]
  exact hranks

/-- Witness for claim C7: capacity-2 population after one `add` with the
concrete rank-0 routine. -/
theorem ranked_ranks_nondecreasing_witness :
    List.Sorted (· ≤ ·) ((DominancePopulation.ranked
      (DominancePopulation.add srConstZero (fun n => (n : ℚ))
        { max_population_size := 2, individuals := [], ranks := [] } 5)).map Prod.snd) :=
  ranked_ranks_nondecreasing srConstZero (fun n => (n : ℚ))
    (fun l n _ => ⟨by simp [srConstZero], by simp [srConstZero]⟩)
    _ (Reachable.add_intro 5 (Reachable.new_intro 2 (by decide)))

end Vrp
